import Mathlib

/-!
Verification of the balanced-separator log-depth GHD decomposition engine
(the LogKDecomp algorithm) against its natural-language specification.

The Go sources provide the engine (LogKDecomp.findDecomp, baseCase,
attachingSubtrees), the tree component (Node, CheckLeaves) and the parallel
search component (ParallelSearch, BalancedCheck, ParentCheck).  The basic
hypergraph library (Graph, Edges, GetComponents, Subset, Inter, Diff,
FilterVertices, GetSubset, IntHash, the combination iterator and the negative
cache) is not among the provided sources; those are modelled from the
specification, and each such definition carries a doc comment saying so.

Concurrency is modelled by a deterministic sequential schedule: the parallel
search runs its shard workers one after the other, and the fork/join of the
engine evaluates the upper decomposition first and then the child components
in order.  This is one legal schedule of the Go program.
-/

namespace BalancedGo

/-- A vertex is an integer identifier (Go int). -/
abbrev Vertex := Int

/-- Modelled from the spec: membership of a vertex in a vertex list
(library function Mem, not among the provided sources). -/
def Mem (l : List Vertex) (v : Vertex) : Bool :=
  l.contains v

/-- Modelled from the spec: Subset test on vertex lists
(library function Subset, not among the provided sources). -/
def Subset (as bs : List Vertex) : Bool :=
  as.all (fun a => bs.contains a)

/-- Modelled from the spec: intersection of vertex lists
(library function Inter, not among the provided sources). -/
def Inter (as bs : List Vertex) : List Vertex :=
  as.filter (fun a => bs.contains a)

/-- Modelled from the spec: difference of vertex lists
(library function Diff, not among the provided sources). -/
def Diff (as bs : List Vertex) : List Vertex :=
  as.filter (fun a => ¬ bs.contains a)

/-- A named hyperedge: an identifier and a sequence of vertex ids.
Equality between edges is by identifier (spec section 3). -/
structure Edge where
  name : Int
  vertices : List Vertex
deriving Repr, DecidableEq

/-- An ordered collection of edges (Go type Edges). -/
abbrev Edges := List Edge

/-- Modelled from the spec: Edges.Vertices, the union of the member edges'
vertex lists (library function, not among the provided sources).  The Go
version deduplicates; membership is unaffected, so the plain concatenation
is used here. -/
def edgesVertices (es : Edges) : List Vertex :=
  (es.map Edge.vertices).flatten

/-- The list of edge identifiers of an edge collection. -/
def edgesNames (es : Edges) : List Int :=
  es.map Edge.name

/-- A graph is a pair of an edge collection and a collection of special
edges; in these sources each special edge is itself a (one-element)
Edges value (field H.Special of type List of Edges). -/
structure Graph where
  edges : Edges
  special : List Edges
deriving Repr, DecidableEq

/-- Graph.Vertices: union of the vertices of the edges and of the
special edges. -/
def Graph.vertices (H : Graph) : List Vertex :=
  edgesVertices H.edges ++ (H.special.map edgesVertices).flatten

/-- Graph.Len: number of edges plus number of special edges. -/
def Graph.len (H : Graph) : Nat :=
  H.edges.length + H.special.length

/-- Modelled from the spec: FilterVertices keeps the edges that have at
least one vertex in the given vertex list (library function, not among
the provided sources). -/
def FilterVertices (es : Edges) (vs : List Vertex) : Edges :=
  es.filter (fun e => e.vertices.any (fun v => vs.contains v))

/-- Modelled from the spec: GetSubset maps a list of indices to the
corresponding edges of a collection (library function, not among the
provided sources). -/
def GetSubset (es : Edges) (idx : List Nat) : Edges :=
  idx.map (fun i => es.getD i (Edge.mk 0 []))

/-- Modelled from the spec: IntHash is an order-independent fingerprint
of a vertex list (library function, not among the provided sources).
It is modelled as the canonical sorted form, so two lists have equal
fingerprints exactly when they have equal vertex multisets. -/
def insSorted (v : Vertex) : List Vertex → List Vertex
  | [] => [v]
  | w :: ws => if v ≤ w then v :: w :: ws else w :: insSorted v ws

/-- Modelled from the spec: the order-independent vertex-multiset hash. -/
def IntHash (vs : List Vertex) : List Vertex :=
  vs.foldr insSorted []

/-! ## Connected components (Graph.GetComponents)

Modelled from the spec, section 4.1: GetComponents(sep) returns the
non-empty connected components of the graph after the separator's
vertices are removed, each lifted back to a sub-graph of H carrying the
edges and the special edges that live inside it, plus the isolated
edges, the edges of H that survive the removal of sep but whose
vertices all lie inside the vertex footprint of sep.

Connectivity is generated by both the ordinary edges outside the
separator and the special edges; each edge and each special edge
contributes the list of its vertices outside the separator as one
connectivity unit.  The units are merged into pairwise disjoint vertex
classes, and an edge or special edge belongs to the component of the
class that contains the first of its vertices outside the separator
(by construction all of them lie in a single class). -/

/-- The vertices of vs that lie outside the separator vertex list. -/
def outsideVerts (sepV : List Vertex) (vs : List Vertex) : List Vertex :=
  vs.filter (fun v => ¬ sepV.contains v)

/-- Does the class c touch the unit vs (share a vertex)? -/
def touches (c : List Vertex) (vs : List Vertex) : Bool :=
  c.any (fun v => vs.contains v)

/-- Insert one connectivity unit into a list of disjoint vertex classes,
merging every class it touches. -/
def insertUnit (classes : List (List Vertex)) (vs : List Vertex) : List (List Vertex) :=
  if vs.isEmpty then classes
  else (vs ++ (classes.filter (fun c => touches c vs)).flatten) ::
         classes.filter (fun c => ¬ touches c vs)

/-- The edges of H outside the separator (edge equality by identifier). -/
def nonSepEdges (H : Graph) (sep : Edges) : Edges :=
  H.edges.filter (fun e => ¬ (edgesNames sep).contains e.name)

/-- The connectivity units of H with respect to sep. -/
def unitsOf (H : Graph) (sep : Edges) : List (List Vertex) :=
  let sepV := edgesVertices sep
  (nonSepEdges H sep).map (fun e => outsideVerts sepV e.vertices) ++
    H.special.map (fun s => outsideVerts sepV (edgesVertices s))

/-- The disjoint vertex classes of H minus sep. -/
def vertexClasses (H : Graph) (sep : Edges) : List (List Vertex) :=
  (unitsOf H sep).foldl insertUnit []

/-- Does this vertex list belong to the class c, judged by its first
vertex outside the separator? -/
def assignedTo (sepV : List Vertex) (c : List Vertex) (vs : List Vertex) : Bool :=
  match (outsideVerts sepV vs).head? with
  | none => false
  | some v => c.contains v

/-- The component sub-graph of one vertex class. -/
def compOfClass (H : Graph) (sep : Edges) (c : List Vertex) : Graph :=
  let sepV := edgesVertices sep
  { edges := (nonSepEdges H sep).filter (fun e => assignedTo sepV c e.vertices),
    special := H.special.filter (fun s => assignedTo sepV c (edgesVertices s)) }

/-- Modelled from the spec: Graph.GetComponents (library function, not
among the provided sources).  Returns the components in deterministic
order together with the isolated edges. -/
def Graph.getComponents (H : Graph) (sep : Edges) : List Graph × Edges :=
  let sepV := edgesVertices sep
  ((vertexClasses H sep).map (compOfClass H sep),
   (nonSepEdges H sep).filter (fun e => e.vertices.all (fun v => sepV.contains v)))

/-! ## The predicates of the parallel search -/

/-- The balancedness limit of the source: (H.Len times (balFactor minus 1))
divided by balFactor, in integer division. -/
def balancednessLimit (H : Graph) (balFactor : Int) : Int :=
  ((H.len : Int) * (balFactor - 1)) / balFactor

/-- BalancedCheck.Check from the sources: sep is balanced when every
component of H minus sep is at most the balancedness limit and the
vertex-set hash of sep differs from the hash of every special edge. -/
def BalancedCheck.Check (H : Graph) (sep : Edges) (balFactor : Int) : Bool :=
  ((H.getComponents sep).fst.all
      (fun C => decide ((C.len : Int) ≤ balancednessLimit H balFactor))) &&
    (H.special.all
      (fun s => ¬ IntHash (edgesVertices s) = IntHash (edgesVertices sep)))

/-- The fold of the source loop that scans the components for one whose
size exceeds the limit and keeps the last one found. -/
def findLow (comps : List Graph) (limit : Int) : Option Graph :=
  comps.foldl (fun acc C => if (C.len : Int) > limit then some C else acc) none

/-- ParentCheck.Check from the sources: look for the (last) over-sized
component, then require that Conn restricted to it is covered by the
separator's vertices and that the vertices shared between it and the
separator lie inside the child's connector. -/
def ParentCheck.Check (Conn Child : List Vertex) (H : Graph) (sep : Edges)
    (balFactor : Int) : Bool :=
  match findLow (H.getComponents sep).fst (balancednessLimit H balFactor) with
  | none => false
  | some compLow =>
      let vertCompLow := compLow.vertices
      Subset (Inter vertCompLow Conn) (edgesVertices sep) &&
        Subset (Inter vertCompLow (edgesVertices sep)) (Inter Child vertCompLow)

/-! ## The tree component -/

/-- A Node is the root of a labelled tree: the bag, the edge cover and the
children.  The fields num, Up and Low of the Go struct serve only the
printing and correctness-checking helpers and are omitted. -/
inductive Node where
  | mk (bag : List Vertex) (cover : Edges) (children : List Node)
deriving Repr

/-- The bag of a node. -/
def Node.bag : Node → List Vertex
  | .mk b _ _ => b

/-- The cover of a node. -/
def Node.cover : Node → Edges
  | .mk _ c _ => c

/-- The children of a node. -/
def Node.children : Node → List Node
  | .mk _ _ ch => ch

mutual

/-- Node.CheckLeaves from the sources: if the node is a leaf whose bag
contains the given vertices, graft the subtree below it as its single
child; otherwise recurse into the children in order and replace the
first child for which the graft succeeds.  The none case is the
(false, empty) return of the source. -/
def Node.checkLeaves (vertices : List Vertex) (subtree : Node) : Node → Option Node
  | .mk bag cover [] =>
      if Subset vertices bag then some (.mk bag cover [subtree]) else none
  | .mk bag cover (c :: cs) =>
      match checkLeavesList vertices subtree (c :: cs) with
      | some ch => some (.mk bag cover ch)
      | none => none

/-- The loop of Node.CheckLeaves over the children. -/
def checkLeavesList (vertices : List Vertex) (subtree : Node) :
    List Node → Option (List Node)
  | [] => none
  | c :: cs =>
      match Node.checkLeaves vertices subtree c with
      | some c2 => some (c2 :: cs)
      | none =>
          match checkLeavesList vertices subtree cs with
          | some cs2 => some (c :: cs2)
          | none => none

end

/-- Modelled from the spec: Node.CombineNodes is not among the provided
sources.  Per the attach operation of spec section 4.7 it searches the
tree above for the connecting leaf (the provided Node.CheckLeaves, keyed
by the vertices of the connecting edges) and grafts the subtree there;
nil is returned when no leaf matches. -/
def Node.combineNodes (n : Node) (subtree : Node) (connecting : Edges) : Option Node :=
  Node.checkLeaves (edgesVertices connecting) subtree n

/-- attachingSubtrees from the sources; the none value models the
log.Panicln abort when the tree above holds no connecting node. -/
def attachingSubtrees (subtreeAbove subtreeBelow : Node) (connecting : Edges) :
    Option Node :=
  Node.combineNodes subtreeAbove subtreeBelow connecting

mutual

/-- Is there a leaf whose bag contains the given vertices?  This is the
success condition of Node.CheckLeaves. -/
def hasGraftLeaf (vertices : List Vertex) : Node → Bool
  | .mk bag _ [] => Subset vertices bag
  | .mk _ _ (c :: cs) => hasGraftLeafList vertices (c :: cs)

/-- hasGraftLeaf over a list of nodes. -/
def hasGraftLeafList (vertices : List Vertex) : List Node → Bool
  | [] => false
  | c :: cs => hasGraftLeaf vertices c || hasGraftLeafList vertices cs

end

mutual

/-- The number of nodes of the tree whose cover equals the given edge
collection. -/
def countCoverEq (marker : Edges) : Node → Nat
  | .mk _ cover ch => (if cover = marker then 1 else 0) + countCoverEqList marker ch

/-- countCoverEq over a list of nodes. -/
def countCoverEqList (marker : Edges) : List Node → Nat
  | [] => 0
  | c :: cs => countCoverEq marker c + countCoverEqList marker cs

end

/-! ## The combination iterator and the parallel search

The combination iterator (SplitCombin) is not among the provided
sources; per spec section 4.2 it enumerates all k-subsets of an index
range in lexicographic order and splits them into disjoint,
order-preserving shards that together cover the space exactly once.
The parallel search is modelled under the deterministic sequential
schedule in which worker i+1 starts only after worker i has stopped. -/

/-- All k-element ascending index tuples over the given list, in
lexicographic order. -/
def combos : Nat → List Nat → List (List Nat)
  | 0, _ => [[]]
  | _ + 1, [] => []
  | k + 1, x :: xs => (combos k xs).map (fun t => x :: t) ++ combos (k + 1) xs

/-- Modelled from the spec: all k-subsets of the index range below m, in
lexicographic order. -/
def combinations (m k : Nat) : List (List Nat) :=
  combos k (List.range m)

/-- Split a list into contiguous chunks of size szPred + 1. -/
def chunks (szPred : Nat) : List α → List (List α)
  | [] => []
  | x :: xs => (x :: xs.take szPred) :: chunks szPred (xs.drop szPred)
  termination_by xs => xs.length
  decreasing_by simp; omega

/-- Modelled from the spec: SplitCombin splits the enumeration of all
k-subsets of the range below n into at most p disjoint order-preserving
shards covering the space exactly once. -/
def SplitCombin (n k p : Nat) : List (List (List Nat)) :=
  let all := combinations n k
  chunks ((all.length + p) / (p + 1)) all

/-- The state of a ParallelSearch: the generator shards (each a list of
remaining candidates), the last result and the exhaustion flag. -/
structure ParallelSearch where
  generators : List (List (List Nat))
  result : List Nat
  exhaustedSearch : Bool

/-- One worker's scan of its shard: drop failing candidates until the
first one satisfying the predicate, which is confirmed and returned. -/
def scanShard (pred : List Nat → Bool) : List (List Nat) → Option (List Nat) × List (List Nat)
  | [] => (none, [])
  | j :: js => if pred j then (some j, js) else scanShard pred js

/-- The search step over the shard list: the first worker whose shard
holds a satisfying candidate wins, the losing earlier shards are left
exhausted. -/
def findNextGens (pred : List Nat → Bool) :
    List (List (List Nat)) → Option (List Nat × List (List (List Nat)))
  | [] => none
  | g :: gs =>
      match scanShard pred g with
      | (some j, rest) => some (j, rest :: gs)
      | (none, _) =>
          match findNextGens pred gs with
          | some (j, gs2) => some (j, [] :: gs2)
          | none => none

/-- ParallelSearch.FindNext from the sources, under the sequential
schedule: either the Result is set to the next satisfying candidate, or
ExhaustedSearch is set to true. -/
def ParallelSearch.FindNext (s : ParallelSearch) (pred : List Nat → Bool) : ParallelSearch :=
  match findNextGens pred s.generators with
  | some (j, gens2) => { generators := gens2, result := j, exhaustedSearch := s.exhaustedSearch }
  | none => { generators := s.generators, result := [], exhaustedSearch := true }

/-- The satisfying candidates of a shard list, shard by shard in order. -/
def enumAll (pred : List Nat → Bool) (gens : List (List (List Nat))) : List (List Nat) :=
  (gens.map (fun g => g.filter pred)).flatten

/-- The total number of candidates left in a shard list. -/
def gensTotal (gens : List (List (List Nat))) : Nat :=
  (gens.map List.length).sum

/-- The stream of results produced by iterating FindNext until the search
is exhausted (with enough fuel). -/
def searchResults (pred : List Nat → Bool) :
    Nat → List (List (List Nat)) → List (List Nat)
  | 0, _ => []
  | fuel + 1, gens =>
      match findNextGens pred gens with
      | none => []
      | some (j, gens2) => j :: searchResults pred fuel gens2

/-! ## The decomposition engine -/

/-- A decomposition: a graph and the root node of its tree. -/
structure Decomp where
  graph : Graph
  root : Node

/-- The zero-valued decomposition, the engine's failure value. -/
def emptyDecomp : Decomp :=
  { graph := { edges := [], special := [] }, root := .mk [] [] [] }

/-- The engine's failure test: structural equality with the zero value
(reflect.DeepEqual against the zero Decomp in the source). -/
def Decomp.isZero (d : Decomp) : Bool :=
  d.graph.edges.isEmpty && d.graph.special.isEmpty &&
    (match d.root with | .mk b c ch => b.isEmpty && c.isEmpty && ch.isEmpty)

/-- Modelled from the spec: the negative cache, an add-only set of pairs
of the fingerprint of a child separator and the fingerprint of a
component previously proven undecomposable (spec section 4.5). -/
abbrev Cache := List (List Vertex × List Vertex)

/-- Modelled from the spec: the cache lookup consulted with a freshly
selected child separator and its components. -/
def Cache.checkNegative (cache : Cache) (sep : Edges) (comps : List Graph) : Bool :=
  comps.any (fun C => cache.contains (IntHash (edgesVertices sep), IntHash C.vertices))

/-- Modelled from the spec: record one failed pair in the cache. -/
def Cache.addNegative (cache : Cache) (sep : Edges) (C : Graph) : Cache :=
  (IntHash (edgesVertices sep), IntHash C.vertices) :: cache

/-- The fatal outcomes of the engine: the contract-violation panics of the
source, the blocked join (the source's receive loop waits for one more
message than there are senders when the upper component gets no
goroutine and every child succeeds), and exhaustion of the explicit
recursion fuel of this model. -/
inductive EngineError where
  | connNotSubset
  | noLowComp
  | connNotCovered
  | attachFailed
  | blockedJoin
  | outOfFuel
deriving Repr, DecidableEq

/-- The result of one engine call: a decomposition (possibly the failure
value) with the updated cache, or a fatal outcome. -/
abbrev EngineResult := Except EngineError (Decomp × Cache)

/-- LogKDecomp.baseCaseCheck from the sources.  The conjunct
lenE + lenSp at least 0 of the last case is always true and is dropped. -/
def baseCaseCheck (K : Nat) (lenE lenSp lenAE : Nat) : Bool :=
  (decide (lenE ≤ K) && decide (lenSp = 0)) ||
    (decide (lenE = 0) && decide (lenSp = 1)) ||
    (decide (lenE = 0) && decide (lenSp > 1)) ||
    decide (lenAE = 0)

/-- LogKDecomp.baseCase from the sources: the two failure cases are
checked first, then the two (mutually exclusive) success cases fill in
the output, which otherwise stays the zero value. -/
def baseCase (K : Nat) (H : Graph) (lenAE : Nat) : Decomp :=
  if decide (H.edges.length = 0) && decide (H.special.length > 1) then emptyDecomp
  else if decide (lenAE = 0) then emptyDecomp
  else if decide (H.edges.length ≤ K) && decide (H.special.length = 0) then
    { graph := H, root := .mk H.vertices H.edges [] }
  else
    match H.special with
    | sp1 :: _ =>
        if decide (H.edges.length = 0) && decide (H.special.length = 1) then
          { graph := H, root := .mk (edgesVertices sp1) sp1 [] }
        else emptyDecomp
    | [] => emptyDecomp

/-- Remove the element at the given index, keeping the order of the rest
(the source loops over comps with i different from compLowIndex). -/
def removeIdx (l : List α) (i : Nat) : List α :=
  (l.enum.filter (fun p => p.fst ≠ i)).map Prod.snd

/-- The source loop that scans the parent components for an over-sized
one, keeping the last such component and its index. -/
def findLowIdx (comps : List Graph) (limit : Int) : Option (Nat × Graph) :=
  (comps.foldl
      (fun (acc : Nat × Option (Nat × Graph)) C =>
        (acc.fst + 1, if (C.len : Int) > limit then some (acc.fst, C) else acc.snd))
      (0, none)).snd

/-- The sequential recursion over child components shared by the
child-root case and the forked child recursions of the PARENT case:
recurse on each component with connector Conn equal to the component's
vertices intersected with the child connector; on the first failure
record the pair in the negative cache and signal the caller to continue
with the next separator, otherwise collect the roots in order. -/
def rootCompsLoop (rec : Graph → List Vertex → Edges → Cache → EngineResult)
    (childLambda : Edges) (childChi : List Vertex) (allowedFull : Edges) :
    List Graph → Cache → Except EngineError (Cache × Option (List Node))
  | [], cache => .ok (cache, some [])
  | C :: rest, cache =>
      match rec C (Inter C.vertices childChi) allowedFull cache with
      | .error e => .error e
      | .ok (d, cache1) =>
          if d.isZero then .ok (Cache.addNegative cache1 childLambda C, none)
          else
            match rootCompsLoop rec childLambda childChi allowedFull rest cache1 with
            | .error e => .error e
            | .ok (cache2, none) => .ok (cache2, none)
            | .ok (cache2, some ns) => .ok (cache2, some (d.root :: ns))

/-- The delivery of the upper decomposition in the PARENT phase: the
two-node tree when the separator leaves a single component, the
recursive call on the upper component when it holds a real edge, and
nothing (no sender for the join) otherwise. -/
def parentUp (rec : Graph → List Vertex → Edges → Cache → EngineResult)
    (Conn VerticesH : List Vertex) (allowedFull : Edges)
    (childLambda parentLambda : Edges) (comps_p : List Graph) (compLow : Graph)
    (tempEdgeSlice : Edges) (tempSpecialSlice : List Edges) (specialChild : Edges)
    (cache : Cache) : Except EngineError (Option (Decomp × Cache)) :=
  if comps_p.length = 1 then
    .ok (some
      ({ graph := { edges := parentLambda, special := [specialChild] },
         root := .mk (Inter (edgesVertices parentLambda) VerticesH) parentLambda
           [.mk (edgesVertices specialChild) childLambda []] }, cache))
  else if tempEdgeSlice.length > 0 then
    match rec { edges := tempEdgeSlice, special := tempSpecialSlice ++ [specialChild] } Conn
        (allowedFull.filter (fun e => ¬ (edgesNames compLow.edges).contains e.name)) cache with
    | .error e => .error e
    | .ok dc => .ok (some dc)
  else .ok none

/-- The PARENT loop of findDecomp over the (pre-filtered) satisfying
parent candidates, under the sequential schedule: the upper
decomposition is evaluated first, then the child components in order.
A none outcome means the loop is exhausted and the CHILD loop continues. -/
def parentLoop (rec : Graph → List Vertex → Edges → Cache → EngineResult)
    (balFactor : Int) (H : Graph) (Conn VerticesH : List Vertex)
    (allowedFull allowedParent childLambda : Edges) :
    List (List Nat) → Cache → Except EngineError (Cache × Option Decomp)
  | [], cache => .ok (cache, none)
  | jp :: rest, cache =>
      let parentLambda := GetSubset allowedParent jp
      let compsIso := H.getComponents parentLambda
      let comps_p := compsIso.fst
      match findLowIdx comps_p (balancednessLimit H balFactor) with
      | none => .error .noLowComp
      | some (lowIdx, compLow) =>
          let childChi := Inter (edgesVertices childLambda) compLow.vertices
          let comps_c := (compLow.getComponents childLambda).fst
          if Cache.checkNegative cache childLambda comps_c then
            parentLoop rec balFactor H Conn VerticesH allowedFull allowedParent
              childLambda rest cache
          else
            let others := removeIdx comps_p lowIdx
            let tempEdgeSlice := compsIso.snd ++ (others.map Graph.edges).flatten
            let tempSpecialSlice := (others.map Graph.special).flatten
            let specialChild : Edges := [Edge.mk 0 childChi]
            match parentUp rec Conn VerticesH allowedFull childLambda parentLambda comps_p
                compLow tempEdgeSlice tempSpecialSlice specialChild cache with
            | .error e => .error e
            | .ok upRes =>
                match upRes with
                | some (dUp, cache1) =>
                    if dUp.isZero then
                      parentLoop rec balFactor H Conn VerticesH allowedFull allowedParent
                        childLambda rest cache1
                    else if ¬ Subset Conn dUp.root.bag then .error .connNotCovered
                    else
                      match rootCompsLoop rec childLambda childChi allowedFull comps_c cache1 with
                      | .error e => .error e
                      | .ok (cache2, none) =>
                          parentLoop rec balFactor H Conn VerticesH allowedFull allowedParent
                            childLambda rest cache2
                      | .ok (cache2, some subtrees) =>
                          let rootChild := Node.mk childChi childLambda subtrees
                          if tempEdgeSlice.length > 0 then
                            match attachingSubtrees dUp.root rootChild specialChild with
                            | none => .error .attachFailed
                            | some finalRoot =>
                                .ok (cache2, some { graph := H, root := finalRoot })
                          else .ok (cache2, some { graph := H, root := rootChild })
                | none =>
                    match rootCompsLoop rec childLambda childChi allowedFull comps_c cache with
                    | .error e => .error e
                    | .ok (cache2, none) =>
                        parentLoop rec balFactor H Conn VerticesH allowedFull allowedParent
                          childLambda rest cache2
                    | .ok (_, some _) => .error .blockedJoin

/-- The CHILD loop of findDecomp over the (pre-filtered) balanced child
candidates.  For each candidate: if Conn is covered by the child's
vertices, try it as root; otherwise run the PARENT loop. -/
def childLoop (rec : Graph → List Vertex → Edges → Cache → EngineResult)
    (K : Nat) (balFactor : Int) (H : Graph) (Conn VerticesH : List Vertex)
    (allowedFull allowed : Edges) :
    List (List Nat) → Cache → EngineResult
  | [], cache => .ok (emptyDecomp, cache)
  | j :: rest, cache =>
      let childLambda := GetSubset allowed j
      let comps_c := (H.getComponents childLambda).fst
      if Subset Conn (edgesVertices childLambda) then
        let childChi := Inter (edgesVertices childLambda) VerticesH
        if Cache.checkNegative cache childLambda comps_c then
          childLoop rec K balFactor H Conn VerticesH allowedFull allowed rest cache
        else
          match rootCompsLoop rec childLambda childChi allowedFull comps_c cache with
          | .error e => .error e
          | .ok (cache1, none) =>
              childLoop rec K balFactor H Conn VerticesH allowedFull allowed rest cache1
          | .ok (cache1, some subtrees) =>
              .ok ({ graph := H, root := .mk childChi childLambda subtrees }, cache1)
      else
        let allowedParent := FilterVertices allowed (Conn ++ edgesVertices childLambda)
        let parentCands := (combinations allowedParent.length K).filter
          (fun jp => ParentCheck.Check Conn (edgesVertices childLambda) H
            (GetSubset allowedParent jp) balFactor)
        match parentLoop rec balFactor H Conn VerticesH allowedFull allowedParent
            childLambda parentCands cache with
        | .error e => .error e
        | .ok (cache1, none) =>
            childLoop rec K balFactor H Conn VerticesH allowedFull allowed rest cache1
        | .ok (cache1, some d) => .ok (d, cache1)

/-- LogKDecomp.findDecomp from the sources, under the sequential
schedule, with explicit recursion fuel (the Go function recurses without
a bound; exhausted fuel gives the outOfFuel outcome).  The iteration of
the parallel search is replaced by the filtered candidate enumeration,
which by the search lemmas below is exactly the stream of results the
search delivers. -/
def findDecompF (K : Nat) (balFactor : Int) :
    Nat → Graph → List Vertex → Edges → Cache → EngineResult
  | 0, _, _, _, _ => .error .outOfFuel
  | fuel + 1, H, Conn, allowedFull, cache =>
      if ¬ Subset Conn H.vertices then .error .connNotSubset
      else if baseCaseCheck K H.edges.length H.special.length allowedFull.length then
        .ok (baseCase K H allowedFull.length, cache)
      else
        let VerticesH := H.vertices
        let allowed := FilterVertices allowedFull VerticesH
        let childCands := (combinations allowed.length K).filter
          (fun j => BalancedCheck.Check H (GetSubset allowed j) balFactor)
        childLoop (findDecompF K balFactor fuel) K balFactor H Conn VerticesH
          allowedFull allowed childCands cache

/-- The algorithm structure of the sources: graph, width and balance
factor (the GOMAXPROCS shard count does not influence the sequential
schedule and is omitted). -/
structure LogKDecomp where
  graph : Graph
  K : Nat
  balFactor : Int

/-- LogKDecomp.FindDecomp from the sources: initialize the cache and run
findDecomp on the graph with empty Conn and the graph's own edge set as
the allowed edges. -/
def LogKDecomp.FindDecomp (l : LogKDecomp) (fuel : Nat) : Except EngineError Decomp :=
  (findDecompF l.K l.balFactor fuel l.graph [] l.graph.edges []).map Prod.fst

/-! ## The correctness checker of a finished decomposition

Modelled from the spec: Decomp.CheckCorrect is an external collaborator
(spec sections 1 and 6), specified as: (a) every vertex of the graph
appears in some bag; (b) every hyperedge's vertices are contained in
some single bag; (c) for every vertex the set of nodes whose bag
contains it induces a connected subtree; (d) every bag is a subset of
its cover's vertex set; (e) every cover has at most k edges. -/

mutual

/-- Is the vertex contained in some bag of the tree? -/
def Node.hasVertex (v : Vertex) : Node → Bool
  | .mk bag _ ch => bag.contains v || nodeListHasVertex v ch

/-- hasVertex over a list of nodes. -/
def nodeListHasVertex (v : Vertex) : List Node → Bool
  | [] => false
  | c :: cs => Node.hasVertex v c || nodeListHasVertex v cs

end

mutual

/-- Node.coversEdge from the sources: the edge's vertices are contained
in this node's bag, or recursively in some descendant's bag. -/
def Node.coversEdge (e : Edge) : Node → Bool
  | .mk bag _ ch => Subset e.vertices bag || nodeListCoversEdge e ch

/-- coversEdge over a list of nodes. -/
def nodeListCoversEdge (e : Edge) : List Node → Bool
  | [] => false
  | c :: cs => Node.coversEdge e c || nodeListCoversEdge e cs

end

mutual

/-- The connected blocks of the subtree induced by one vertex: the number
of maximal connected groups of nodes whose bag holds the vertex, paired
with whether the topmost node belongs to such a group (so that it can
merge with the parent). -/
def Node.vBlocks (v : Vertex) : Node → Nat × Bool
  | .mk bag _ ch =>
      let r := nodeListVBlocks v ch
      if bag.contains v then (r.fst - r.snd + 1, true) else (r.fst, false)

/-- vBlocks over a list of children: total block count and the number of
children whose topmost node is in a block. -/
def nodeListVBlocks (v : Vertex) : List Node → Nat × Nat
  | [] => (0, 0)
  | c :: cs =>
      let r := Node.vBlocks v c
      let rs := nodeListVBlocks v cs
      (r.fst + rs.fst, (if r.snd then 1 else 0) + rs.snd)

end

mutual

/-- Node.bagSubsets from the sources: every bag in the tree is a subset
of the vertex set of its cover. -/
def Node.bagSubsets : Node → Bool
  | .mk bag cover ch => Subset bag (edgesVertices cover) && nodeListBagSubsets ch

/-- bagSubsets over a list of nodes. -/
def nodeListBagSubsets : List Node → Bool
  | [] => true
  | c :: cs => Node.bagSubsets c && nodeListBagSubsets cs

end

mutual

/-- Every cover in the tree has at most k edges. -/
def Node.coversBounded (k : Nat) : Node → Bool
  | .mk _ cover ch => decide (cover.length ≤ k) && nodeListCoversBounded k ch

/-- coversBounded over a list of nodes. -/
def nodeListCoversBounded (k : Nat) : List Node → Bool
  | [] => true
  | c :: cs => Node.coversBounded k c && nodeListCoversBounded k cs

end

/-- Modelled from the spec: Decomp.CheckCorrect, conditions (a) to (e) of
the soundness property (spec section 8). -/
def Decomp.CheckCorrect (d : Decomp) (G : Graph) (k : Nat) : Bool :=
  (G.vertices.all (fun v => d.root.hasVertex v)) &&
    (G.edges.all (fun e => d.root.coversEdge e)) &&
    (G.vertices.all (fun v => decide ((d.root.vBlocks v).fst ≤ 1))) &&
    d.root.bagSubsets &&
    d.root.coversBounded k

/-! ## The engine with the negative cache disabled

The cache-idempotence property compares the engine against the run in
which every CheckNegative answers that the pair is not present and no
insertion is made (spec section 8).  These are the same loops with the
cache operations removed. -/

/-- The child-component recursion of the cache-disabled run. -/
def rootCompsLoopNC (rec : Graph → List Vertex → Edges → EngineResult)
    (childChi : List Vertex) (allowedFull : Edges) :
    List Graph → Except EngineError (Option (List Node))
  | [] => .ok (some [])
  | C :: rest =>
      match rec C (Inter C.vertices childChi) allowedFull with
      | .error e => .error e
      | .ok (d, _) =>
          if d.isZero then .ok none
          else
            match rootCompsLoopNC rec childChi allowedFull rest with
            | .error e => .error e
            | .ok none => .ok none
            | .ok (some ns) => .ok (some (d.root :: ns))

/-- The PARENT loop of the cache-disabled run. -/
def parentLoopNC (rec : Graph → List Vertex → Edges → EngineResult)
    (balFactor : Int) (H : Graph) (Conn VerticesH : List Vertex)
    (allowedFull allowedParent childLambda : Edges) :
    List (List Nat) → Except EngineError (Option Decomp)
  | [] => .ok none
  | jp :: rest =>
      let parentLambda := GetSubset allowedParent jp
      let compsIso := H.getComponents parentLambda
      let comps_p := compsIso.fst
      match findLowIdx comps_p (balancednessLimit H balFactor) with
      | none => .error .noLowComp
      | some (lowIdx, compLow) =>
          let childChi := Inter (edgesVertices childLambda) compLow.vertices
          let comps_c := (compLow.getComponents childLambda).fst
          let others := removeIdx comps_p lowIdx
          let tempEdgeSlice := compsIso.snd ++ (others.map Graph.edges).flatten
          let tempSpecialSlice := (others.map Graph.special).flatten
          let specialChild : Edges := [Edge.mk 0 childChi]
          let up : Except EngineError (Option Decomp) :=
            if comps_p.length = 1 then
              .ok (some
                { graph := { edges := parentLambda, special := [specialChild] },
                  root := .mk (Inter (edgesVertices parentLambda) VerticesH) parentLambda
                    [.mk (edgesVertices specialChild) childLambda []] })
            else if tempEdgeSlice.length > 0 then
              let compUp : Graph :=
                { edges := tempEdgeSlice, special := tempSpecialSlice ++ [specialChild] }
              let allowedReduced :=
                allowedFull.filter (fun e => ¬ (edgesNames compLow.edges).contains e.name)
              match rec compUp Conn allowedReduced with
              | .error e => .error e
              | .ok dc => .ok (some dc.fst)
            else .ok none
          match up with
          | .error e => .error e
          | .ok upRes =>
              match upRes with
              | some dUp =>
                  if dUp.isZero then
                    parentLoopNC rec balFactor H Conn VerticesH allowedFull allowedParent
                      childLambda rest
                  else if ¬ Subset Conn dUp.root.bag then .error .connNotCovered
                  else
                    match rootCompsLoopNC rec childChi allowedFull comps_c with
                    | .error e => .error e
                    | .ok none =>
                        parentLoopNC rec balFactor H Conn VerticesH allowedFull allowedParent
                          childLambda rest
                    | .ok (some subtrees) =>
                        let rootChild := Node.mk childChi childLambda subtrees
                        if tempEdgeSlice.length > 0 then
                          match attachingSubtrees dUp.root rootChild specialChild with
                          | none => .error .attachFailed
                          | some finalRoot => .ok (some { graph := H, root := finalRoot })
                        else .ok (some { graph := H, root := rootChild })
              | none =>
                  match rootCompsLoopNC rec childChi allowedFull comps_c with
                  | .error e => .error e
                  | .ok none =>
                      parentLoopNC rec balFactor H Conn VerticesH allowedFull allowedParent
                        childLambda rest
                  | .ok (some _) => .error .blockedJoin

/-- The CHILD loop of the cache-disabled run. -/
def childLoopNC (rec : Graph → List Vertex → Edges → EngineResult)
    (K : Nat) (balFactor : Int) (H : Graph) (Conn VerticesH : List Vertex)
    (allowedFull allowed : Edges) :
    List (List Nat) → EngineResult
  | [] => .ok (emptyDecomp, [])
  | j :: rest =>
      let childLambda := GetSubset allowed j
      let comps_c := (H.getComponents childLambda).fst
      if Subset Conn (edgesVertices childLambda) then
        let childChi := Inter (edgesVertices childLambda) VerticesH
        match rootCompsLoopNC rec childChi allowedFull comps_c with
        | .error e => .error e
        | .ok none => childLoopNC rec K balFactor H Conn VerticesH allowedFull allowed rest
        | .ok (some subtrees) =>
            .ok ({ graph := H, root := .mk childChi childLambda subtrees }, [])
      else
        let allowedParent := FilterVertices allowed (Conn ++ edgesVertices childLambda)
        let parentCands := (combinations allowedParent.length K).filter
          (fun jp => ParentCheck.Check Conn (edgesVertices childLambda) H
            (GetSubset allowedParent jp) balFactor)
        match parentLoopNC rec balFactor H Conn VerticesH allowedFull allowedParent
            childLambda parentCands with
        | .error e => .error e
        | .ok none => childLoopNC rec K balFactor H Conn VerticesH allowedFull allowed rest
        | .ok (some d) => .ok (d, [])

/-- findDecomp with the negative cache disabled. -/
def findDecompNC (K : Nat) (balFactor : Int) :
    Nat → Graph → List Vertex → Edges → EngineResult
  | 0, _, _, _ => .error .outOfFuel
  | fuel + 1, H, Conn, allowedFull =>
      if ¬ Subset Conn H.vertices then .error .connNotSubset
      else if baseCaseCheck K H.edges.length H.special.length allowedFull.length then
        .ok (baseCase K H allowedFull.length, [])
      else
        let VerticesH := H.vertices
        let allowed := FilterVertices allowedFull VerticesH
        let childCands := (combinations allowed.length K).filter
          (fun j => BalancedCheck.Check H (GetSubset allowed j) balFactor)
        childLoopNC (fun a b c => findDecompNC K balFactor fuel a b c) K balFactor H Conn
          VerticesH allowedFull allowed childCands

/-! ## Concrete input graphs used to check the boundary behavior -/

/-- The empty hypergraph. -/
def emptyGraph : Graph := { edges := [], special := [] }

/-- The chain of six two-vertex hyperedges on vertices 1 to 7. -/
def chain6 : Graph :=
  { edges := [Edge.mk 1 [1, 2], Edge.mk 2 [2, 3], Edge.mk 3 [3, 4], Edge.mk 4 [4, 5],
              Edge.mk 5 [5, 6], Edge.mk 6 [6, 7]], special := [] }

/-- The chain of eight two-vertex hyperedges on vertices 1 to 9 with two
pendant edges attached at vertices 7 and 8. -/
def pendantChain : Graph :=
  { edges :=
      [Edge.mk 1 [1, 2], Edge.mk 2 [2, 3], Edge.mk 3 [3, 4], Edge.mk 4 [4, 5],
       Edge.mk 5 [5, 6], Edge.mk 6 [6, 7], Edge.mk 7 [7, 8], Edge.mk 8 [8, 9],
       Edge.mk 50 [7, 100], Edge.mk 51 [8, 101]],
    special := [] }

/-- A fourteen-edge hypergraph on which the join of the PARENT phase
waits for one more message than there are senders. -/
def joinBlockGraph : Graph :=
  { edges :=
      [Edge.mk 1 [1, 2], Edge.mk 2 [2, 3], Edge.mk 4 [2, 5], Edge.mk 5 [4, 6],
       Edge.mk 6 [6, 7], Edge.mk 7 [5, 8], Edge.mk 8 [6, 9], Edge.mk 9 [4, 10],
       Edge.mk 10 [4, 11], Edge.mk 11 [6, 12], Edge.mk 12 [6, 13],
       Edge.mk 100 [7, 11], Edge.mk 101 [7, 10], Edge.mk 102 [3, 10]],
    special := [] }

/-! # Theorems -/

theorem subset_iff (as bs : List Vertex) : Subset as bs = true ↔ ∀ v ∈ as, v ∈ bs := by
  simp [Subset, List.all_eq_true]

theorem mem_inter_iff (v : Vertex) (as bs : List Vertex) :
    v ∈ Inter as bs ↔ v ∈ as ∧ v ∈ bs := by
  simp [Inter, List.mem_filter]

/-- Claim C4: BalancedCheck.Check returns true exactly when every
component of H minus sep has size (edges plus special edges) at most
the balancedness limit and the vertex-set hash of sep differs from the
vertex-set hash of every special edge of H. -/
theorem balancedCheck_iff (H : Graph) (sep : Edges) (b : Int) :
    BalancedCheck.Check H sep b = true ↔
      ((∀ C ∈ (Graph.getComponents H sep).fst, (C.len : Int) ≤ balancednessLimit H b) ∧
        ∀ s ∈ H.special, IntHash (edgesVertices s) ≠ IntHash (edgesVertices sep)) := by
  simp [BalancedCheck.Check, List.all_eq_true]

/-- Claim C2: the engine run on the empty hypergraph returns the zero
decomposition (the failure value) at every recursion fuel, because the
failure branch for an empty allowed-edge set fires before the
single-node success case of the base case. -/
theorem findDecomp_emptyGraph_fails :
    ∀ fuel : Nat,
      (LogKDecomp.FindDecomp { graph := emptyGraph, K := 1, balFactor := 2 } (fuel + 1)).map
          Decomp.isZero = .ok true := by
  intro fuel
  rfl

/-- Claim C1: on the chain of six edges with width one the engine returns
a non-zero decomposition that violates the correctness predicate (the
edge on vertices 4 and 5 is contained in no bag). -/
theorem findDecomp_chain6_incorrect :
    (LogKDecomp.FindDecomp { graph := chain6, K := 1, balFactor := 2 } 3).map
        (fun d => (d.isZero, d.CheckCorrect chain6 1)) = .ok (false, false) := by
  rfl

/-- Claim C6: on the chain of eight edges with pendant edges at vertices
7 and 8, the engine recurses on the upper component with a Conn that is
not contained in the component's vertices, reaching the fatal entry
check of findDecomp. -/
theorem findDecomp_pendantChain_panics :
    LogKDecomp.FindDecomp { graph := pendantChain, K := 1, balFactor := 2 } 3 =
      .error .connNotSubset := by
  rfl

/-- Claim C8: on the fourteen-edge graph the PARENT phase reaches a
separator with two components where the upper component holds no edge,
so no goroutine serves the upper channel while every child recursion
succeeds: the receive loop of the source blocks forever.  The outcome
does not depend on the recursion fuel. -/
theorem findDecomp_joinBlockGraph_blocks :
    LogKDecomp.FindDecomp { graph := joinBlockGraph, K := 2, balFactor := 2 } 3 =
        .error .blockedJoin ∧
      LogKDecomp.FindDecomp { graph := joinBlockGraph, K := 2, balFactor := 2 } 10 =
        .error .blockedJoin := by
  exact ⟨rfl, rfl⟩

/-- Claim C9: on the chain of six edges with width one, the engine with
the negative cache and the engine with the cache disabled both return a
non-zero decomposition, and both returned decompositions violate the
correctness predicate, against the requirement that any decomposition
either run returns satisfies it. -/
theorem findDecomp_cache_nocache_chain6_incorrect :
    ((findDecompF 1 2 3 chain6 [] chain6.edges []).map
        (fun p => (p.fst.isZero, p.fst.CheckCorrect chain6 1)) = .ok (false, false)) ∧
      ((findDecompNC 1 2 3 chain6 [] chain6.edges).map
        (fun p => (p.fst.isZero, p.fst.CheckCorrect chain6 1)) = .ok (false, false)) := by
  exact ⟨rfl, rfl⟩

/-! ## Counting lemmas for the component structure -/

theorem contains_iff_mem (l : List Vertex) (v : Vertex) : l.contains v = true ↔ v ∈ l :=
  List.elem_iff

theorem two_le_countP {α : Type} (p : α → Bool) (l : List α) (a b : α)
    (ha : a ∈ l) (hb : b ∈ l) (hne : a ≠ b) (hpa : p a = true) (hpb : p b = true) :
    2 ≤ l.countP p := by
  induction l with
  | nil => cases ha
  | cons x xs ih =>
      rw [List.countP_cons]
      rcases List.mem_cons.mp ha with rfl | ha2
      · have hbx : b ∈ xs := by
          rcases List.mem_cons.mp hb with rfl | h
          · exact absurd rfl hne
          · exact h
        have h1 : 0 < xs.countP p := List.countP_pos_iff.mpr ⟨b, hbx, hpb⟩
        rw [if_pos hpa]
        omega
      · rcases List.mem_cons.mp hb with rfl | hb2
        · have h1 : 0 < xs.countP p := List.countP_pos_iff.mpr ⟨a, ha2, hpa⟩
          rw [if_pos hpb]
          omega
        · have := ih ha2 hb2
          split <;> omega

theorem touches_false_not_shared (d u : List Vertex) (h : touches d u = false) :
    ∀ w, w ∈ d → w ∉ u := by
  intro w hwd hwu
  have : d.any (fun x => u.contains x) = true :=
    List.any_eq_true.mpr ⟨w, hwd, (contains_iff_mem u w).mpr hwu⟩
  rw [touches] at h
  rw [h] at this
  cases this

theorem insertUnit_countP_le (classes : List (List Vertex)) (u : List Vertex) (v : Vertex)
    (h : classes.countP (fun c => c.contains v) ≤ 1) :
    (insertUnit classes u).countP (fun c => c.contains v) ≤ 1 := by
  by_cases hu : u.isEmpty
  · have hq : insertUnit classes u = classes := by
      rw [insertUnit, if_pos hu]
    rw [hq]
    exact h
  · have hq : insertUnit classes u =
        (u ++ (classes.filter (fun c => touches c u)).flatten) ::
          classes.filter (fun c => ¬ touches c u) := by
      rw [insertUnit, if_neg hu]
    rw [hq, List.countP_cons]
    set T := classes.filter (fun c => touches c u) with hT
    set U := classes.filter (fun c => ¬ touches c u) with hU
    have hUsub : ∀ d ∈ U, d ∈ classes ∧ touches d u = false := by
      intro d hd
      have h2 := List.mem_filter.mp hd
      refine ⟨h2.1, ?_⟩
      have := h2.2
      simp only [decide_eq_true_eq] at this
      exact Bool.not_eq_true _ ▸ (by simpa using this)
    by_cases hhead : (u ++ T.flatten).contains v = true
    · have hU0 : U.countP (fun c => c.contains v) = 0 := by
        rw [List.countP_eq_zero]
        intro d hd
        obtain ⟨hdc, hdt⟩ := hUsub d hd
        intro hdv
        have hdv2 : v ∈ d := (contains_iff_mem d v).mp hdv
        have hv : v ∈ u ++ T.flatten := (contains_iff_mem _ v).mp hhead
        rcases List.mem_append.mp hv with hvu | hvT
        · exact touches_false_not_shared d u hdt v hdv2 hvu
        · rcases List.mem_flatten.mp hvT with ⟨t, htT, hvt⟩
          have htc := List.mem_filter.mp htT
          have htv : t.contains v = true := (contains_iff_mem t v).mpr hvt
          have htd : t ≠ d := by
            intro hEq
            have : touches d u = true := by
              have := htc.2
              simpa [hEq] using this
            rw [hdt] at this
            cases this
          have h2 := two_le_countP (fun c => c.contains v) classes t d htc.1 hdc htd htv hdv
          omega
      rw [hU0, if_pos hhead]
    · have hle : U.countP (fun c => c.contains v) ≤ classes.countP (fun c => c.contains v) := by
        rw [hU]
        exact (List.filter_sublist classes).countP_le _
      rw [if_neg hhead]
      omega

theorem foldl_insertUnit_countP_le (units : List (List Vertex))
    (init : List (List Vertex)) (v : Vertex)
    (h : init.countP (fun c => c.contains v) ≤ 1) :
    (units.foldl insertUnit init).countP (fun c => c.contains v) ≤ 1 := by
  induction units generalizing init with
  | nil => simpa using h
  | cons u us ih => exact ih _ (insertUnit_countP_le init u v h)

theorem vertexClasses_countP_le (H : Graph) (sep : Edges) (v : Vertex) :
    (vertexClasses H sep).countP (fun c => c.contains v) ≤ 1 := by
  unfold vertexClasses
  exact foldl_insertUnit_countP_le _ [] v (by simp)

theorem assignedTo_countP_le (H : Graph) (sep : Edges) (vs : List Vertex) :
    (vertexClasses H sep).countP
        (fun c => assignedTo (edgesVertices sep) c vs) ≤ 1 := by
  unfold assignedTo
  cases hh : (outsideVerts (edgesVertices sep) vs).head? with
  | none => simp [List.countP_eq_zero]
  | some v =>
      have := vertexClasses_countP_le H sep v
      simpa using this

theorem sum_map_add_distrib {α : Type} (l : List α) (f g : α → Nat) :
    (l.map (fun x => f x + g x)).sum = (l.map f).sum + (l.map g).sum := by
  induction l with
  | nil => simp
  | cons x xs ih => simp [ih]; omega

theorem sum_map_ite_eq_countP {α : Type} (l : List α) (p : α → Bool) :
    (l.map (fun x => if p x then 1 else 0)).sum = l.countP p := by
  induction l with
  | nil => simp
  | cons x xs ih =>
      rw [List.map_cons, List.sum_cons, List.countP_cons, ih]
      split <;> omega

theorem sum_map_countP_swap {α β : Type} (cs : List α) (es : List β) (p : α → β → Bool) :
    (cs.map (fun c => es.countP (p c))).sum =
      (es.map (fun e => cs.countP (fun c => p c e))).sum := by
  induction es generalizing cs with
  | nil => simp
  | cons e es ih =>
      have h0 : cs.map (fun c => (e :: es).countP (p c))
          = cs.map (fun c => es.countP (p c) + if p c e then 1 else 0) := by
        apply List.map_congr_left
        intro c _
        rw [List.countP_cons]
      rw [h0, sum_map_add_distrib, ih, sum_map_ite_eq_countP]
      simp
      omega

theorem sum_map_le_length {α : Type} (l : List α) (f : α → Nat)
    (h : ∀ x ∈ l, f x ≤ 1) : (l.map f).sum ≤ l.length := by
  induction l with
  | nil => simp
  | cons x xs ih =>
      simp only [List.map_cons, List.sum_cons, List.length_cons]
      have h1 := h x (List.mem_cons_self x xs)
      have h2 := ih (fun y hy => h y (List.mem_cons_of_mem x hy))
      omega

theorem sum_countP_le_length {α β : Type} (cs : List α) (es : List β) (p : α → β → Bool)
    (h : ∀ e ∈ es, cs.countP (fun c => p c e) ≤ 1) :
    (cs.map (fun c => es.countP (p c))).sum ≤ es.length := by
  rw [sum_map_countP_swap]
  exact sum_map_le_length _ _ h

theorem compOfClass_len (H : Graph) (sep : Edges) (c : List Vertex) :
    (compOfClass H sep c).len =
      (nonSepEdges H sep).countP (fun e => assignedTo (edgesVertices sep) c e.vertices) +
        H.special.countP (fun s => assignedTo (edgesVertices sep) c (edgesVertices s)) := by
  rw [List.countP_eq_length_filter, List.countP_eq_length_filter]
  rfl

/-- The components of a graph under a separator jointly hold at most
H.len edges and special edges. -/
theorem comps_len_sum_le (H : Graph) (sep : Edges) :
    (((H.getComponents sep).fst).map Graph.len).sum ≤ H.len := by
  have h1 : (((H.getComponents sep).fst).map Graph.len).sum =
      ((vertexClasses H sep).map
        (fun c => (nonSepEdges H sep).countP
            (fun e => assignedTo (edgesVertices sep) c e.vertices))).sum +
      ((vertexClasses H sep).map
        (fun c => H.special.countP
            (fun s => assignedTo (edgesVertices sep) c (edgesVertices s)))).sum := by
    rw [Graph.getComponents]
    simp only [List.map_map]
    rw [← sum_map_add_distrib]
    apply congrArg
    apply List.map_congr_left
    intro c _
    exact compOfClass_len H sep c
  rw [h1]
  have h2 := sum_countP_le_length (vertexClasses H sep) (nonSepEdges H sep)
    (fun c e => assignedTo (edgesVertices sep) c e.vertices)
    (fun e _ => assignedTo_countP_le H sep e.vertices)
  have h3 := sum_countP_le_length (vertexClasses H sep) H.special
    (fun c s => assignedTo (edgesVertices sep) c (edgesVertices s))
    (fun s _ => assignedTo_countP_le H sep (edgesVertices s))
  have h4 : (nonSepEdges H sep).length ≤ H.edges.length :=
    List.Sublist.length_le (List.filter_sublist _)
  unfold Graph.len
  beta_reduce at h2 h3
  omega

theorem distinct_mem_sum_le {α : Type} (l : List α) (f : α → Nat) (a b : α)
    (ha : a ∈ l) (hb : b ∈ l) (hne : a ≠ b) : f a + f b ≤ (l.map f).sum := by
  induction l with
  | nil => cases ha
  | cons x xs ih =>
      simp only [List.map_cons, List.sum_cons]
      rcases List.mem_cons.mp ha with rfl | ha2
      · have hbx : b ∈ xs := by
          rcases List.mem_cons.mp hb with rfl | h
          · exact absurd rfl hne
          · exact h
        have : f b ≤ (xs.map f).sum := List.le_sum_of_mem (List.mem_map_of_mem f hbx)
        omega
      · rcases List.mem_cons.mp hb with rfl | hb2
        · have : f a ≤ (xs.map f).sum := List.le_sum_of_mem (List.mem_map_of_mem f ha2)
          omega
        · have := ih ha2 hb2
          omega

/-! ## Uniqueness of the over-sized component -/

theorem half_le_balancednessLimit (H : Graph) (b : Int) (hb : 2 ≤ b) :
    (H.len : Int) / 2 ≤ balancednessLimit H b := by
  unfold balancednessLimit
  have hn : (0 : Int) ≤ (H.len : Int) := Int.natCast_nonneg _
  rw [Int.le_ediv_iff_mul_le (by omega : (0 : Int) < b)]
  have hq : 2 * ((H.len : Int) / 2) ≤ (H.len : Int) := by omega
  have hq2 : ((H.len : Int) / 2) ≤ (H.len : Int) := by omega
  nlinarith [mul_le_mul_of_nonneg_right hq2 (by omega : (0 : Int) ≤ b - 2)]

theorem len_le_two_limit_add_one (H : Graph) (b : Int) (hb : 2 ≤ b) :
    (H.len : Int) ≤ 2 * balancednessLimit H b + 1 := by
  have := half_le_balancednessLimit H b hb
  omega

/-- Two over-sized components of the same separator are equal: they would
jointly exceed the total size of the graph. -/
theorem low_comp_unique (H : Graph) (sep : Edges) (b : Int) (hb : 2 ≤ b)
    (L1 L2 : Graph) (h1 : L1 ∈ (H.getComponents sep).fst)
    (h2 : L2 ∈ (H.getComponents sep).fst)
    (hl1 : balancednessLimit H b < (L1.len : Int))
    (hl2 : balancednessLimit H b < (L2.len : Int)) : L1 = L2 := by
  by_contra hne
  have hsum := distinct_mem_sum_le _ Graph.len L1 L2 h1 h2 hne
  have hS := comps_len_sum_le H sep
  have hlim := len_le_two_limit_add_one H b hb
  have hcast : (L1.len : Int) + (L2.len : Int) ≤ (H.len : Int) := by
    exact_mod_cast le_trans hsum hS
  omega

/-! ## The scan for the over-sized component -/

theorem findLow_foldl_mem (limit : Int) (l : List Graph) :
    ∀ (acc : Option Graph) (L : Graph),
      l.foldl (fun acc C => if (C.len : Int) > limit then some C else acc) acc = some L →
      acc = some L ∨ (L ∈ l ∧ limit < (L.len : Int)) := by
  induction l with
  | nil => intro acc L h; exact Or.inl h
  | cons C rest ih =>
      intro acc L h
      rw [List.foldl_cons] at h
      rcases ih _ L h with hacc | hmem
      · by_cases hC : (C.len : Int) > limit
        · rw [if_pos hC] at hacc
          have : C = L := Option.some.inj hacc
          exact Or.inr ⟨this ▸ List.mem_cons_self C rest, this ▸ hC⟩
        · rw [if_neg hC] at hacc
          exact Or.inl hacc
      · exact Or.inr ⟨List.mem_cons_of_mem _ hmem.1, hmem.2⟩

theorem findLow_mem (comps : List Graph) (limit : Int) (L : Graph)
    (h : findLow comps limit = some L) : L ∈ comps ∧ limit < (L.len : Int) := by
  rcases findLow_foldl_mem limit comps none L h with h0 | h1
  · cases h0
  · exact h1

theorem findLow_foldl_some (limit : Int) (l : List Graph) :
    ∀ (C : Graph),
      (l.foldl (fun acc D => if (D.len : Int) > limit then some D else acc) (some C)).isSome := by
  induction l with
  | nil => intro C; rfl
  | cons x rest ih =>
      intro C
      rw [List.foldl_cons]
      by_cases hx : (x.len : Int) > limit
      · rw [if_pos hx]; exact ih x
      · rw [if_neg hx]; exact ih C

theorem findLow_isSome (comps : List Graph) (limit : Int) (L : Graph)
    (hL : L ∈ comps) (hlow : limit < (L.len : Int)) : (findLow comps limit).isSome := by
  unfold findLow
  induction comps with
  | nil => cases hL
  | cons x rest ih =>
      rw [List.foldl_cons]
      rcases List.mem_cons.mp hL with rfl | hL2
      · rw [if_pos hlow]
        exact findLow_foldl_some limit rest L
      · by_cases hx : (x.len : Int) > limit
        · rw [if_pos hx]
          exact findLow_foldl_some limit rest x
        · rw [if_neg hx]
          exact ih hL2

theorem findLowIdx_foldl_some (limit : Int) (l : List Graph) :
    ∀ (acc : Nat × Option (Nat × Graph)), acc.snd.isSome →
      ((l.foldl
        (fun acc C =>
          (acc.fst + 1, if (C.len : Int) > limit then some (acc.fst, C) else acc.snd))
        acc).snd).isSome := by
  induction l with
  | nil => intro acc h; exact h
  | cons x rest ih =>
      intro acc h
      rw [List.foldl_cons]
      apply ih
      by_cases hx : (x.len : Int) > limit
      · simp [if_pos hx]
      · simpa [if_neg hx] using h

theorem findLowIdx_isSome (comps : List Graph) (limit : Int) (L : Graph)
    (hL : L ∈ comps) (hlow : limit < (L.len : Int)) :
    (findLowIdx comps limit).isSome := by
  unfold findLowIdx
  suffices h : ∀ (acc : Nat × Option (Nat × Graph)),
      ((comps.foldl
        (fun acc C =>
          (acc.fst + 1, if (C.len : Int) > limit then some (acc.fst, C) else acc.snd))
        acc).snd).isSome by
    exact h (0, none)
  induction comps with
  | nil => cases hL
  | cons x rest ih =>
      intro acc
      rw [List.foldl_cons]
      rcases List.mem_cons.mp hL with rfl | hL2
      · apply findLowIdx_foldl_some
        simp [if_pos hlow]
      · exact ih hL2 _

/-- A separator accepted by ParentCheck has an over-sized component. -/
theorem parentCheck_gives_low (Conn Child : List Vertex) (H : Graph) (sep : Edges)
    (b : Int) (h : ParentCheck.Check Conn Child H sep b = true) :
    ∃ L ∈ (H.getComponents sep).fst, balancednessLimit H b < (L.len : Int) := by
  unfold ParentCheck.Check at h
  cases hF : findLow (H.getComponents sep).fst (balancednessLimit H b) with
  | none => rw [hF] at h; cases h
  | some L =>
      have := findLow_mem _ _ _ hF
      exact ⟨L, this.1, this.2⟩

/-- Claim C3: for a balance factor of at least two, ParentCheck.Check
returns true exactly when some component L of H minus sep is over-sized
and the two connector conditions hold for it: Conn restricted to V(L)
is covered by the separator's vertices, and the vertices shared by V(L)
and the separator lie in the child's connector. -/
theorem parentCheck_iff (Conn Child : List Vertex) (H : Graph) (sep : Edges) (b : Int)
    (hb : 2 ≤ b) :
    ParentCheck.Check Conn Child H sep b = true ↔
      ∃ L ∈ (H.getComponents sep).fst,
        balancednessLimit H b < (L.len : Int) ∧
        (∀ v, v ∈ Conn → v ∈ L.vertices → v ∈ edgesVertices sep) ∧
        (∀ v, v ∈ L.vertices → v ∈ edgesVertices sep → v ∈ Child ∧ v ∈ L.vertices) := by
  unfold ParentCheck.Check
  cases hF : findLow (H.getComponents sep).fst (balancednessLimit H b) with
  | none =>
      constructor
      · intro h; cases h
      · rintro ⟨L, hL, hlow, _, _⟩
        have := findLow_isSome _ _ L hL hlow
        rw [hF] at this
        cases this
  | some compLow =>
      have hCL := findLow_mem _ _ _ hF
      rw [Bool.and_eq_true, subset_iff, subset_iff]
      constructor
      · rintro ⟨hs1, hs2⟩
        refine ⟨compLow, hCL.1, hCL.2, ?_, ?_⟩
        · intro v hvC hvL
          exact hs1 v (mem_inter_iff v _ _ |>.mpr ⟨hvL, hvC⟩)
        · intro v hvL hvS
          have := hs2 v (mem_inter_iff v _ _ |>.mpr ⟨hvL, hvS⟩)
          have h2 := mem_inter_iff v _ _ |>.mp this
          exact ⟨h2.1, h2.2⟩
      · rintro ⟨L, hL, hlow, hc2, hc3⟩
        have hEq : L = compLow :=
          low_comp_unique H sep b hb L compLow hL hCL.1 hlow hCL.2
        subst hEq
        constructor
        · intro v hv
          have h2 := mem_inter_iff v _ _ |>.mp hv
          exact hc2 v h2.2 h2.1
        · intro v hv
          have h2 := mem_inter_iff v _ _ |>.mp hv
          have h3 := hc3 v h2.1 h2.2
          exact mem_inter_iff v _ _ |>.mpr ⟨h3.1, h3.2⟩

/-- Witness for the ParentCheck characterization at a concrete input. -/
theorem parentCheck_iff_witness :
    ParentCheck.Check [] [1] { edges := [Edge.mk 1 [1, 2]], special := [] } [] 2 = true ∧
      ∃ L ∈ (Graph.getComponents { edges := [Edge.mk 1 [1, 2]], special := [] } []).fst,
        balancednessLimit { edges := [Edge.mk 1 [1, 2]], special := [] } 2 < (L.len : Int) ∧
        (∀ v, v ∈ ([] : List Vertex) → v ∈ L.vertices → v ∈ edgesVertices ([] : Edges)) ∧
        (∀ v, v ∈ L.vertices → v ∈ edgesVertices ([] : Edges) →
          v ∈ [(1 : Int)] ∧ v ∈ L.vertices) := by
  have h := (parentCheck_iff [] [1] { edges := [Edge.mk 1 [1, 2]], special := [] } [] 2
    (by norm_num)).mpr
  have hgoal : ∃ L ∈ (Graph.getComponents { edges := [Edge.mk 1 [1, 2]], special := [] } []).fst,
      balancednessLimit { edges := [Edge.mk 1 [1, 2]], special := [] } 2 < (L.len : Int) ∧
      (∀ v, v ∈ ([] : List Vertex) → v ∈ L.vertices → v ∈ edgesVertices ([] : Edges)) ∧
      (∀ v, v ∈ L.vertices → v ∈ edgesVertices ([] : Edges) →
        v ∈ [(1 : Int)] ∧ v ∈ L.vertices) := by
    refine ⟨{ edges := [Edge.mk 1 [1, 2]], special := [] }, by decide, by decide, ?_, ?_⟩
    · intro v hv; cases hv
    · intro v hvL hvS
      exact absurd hvS (List.not_mem_nil v)
  exact ⟨h hgoal, hgoal⟩

/-! ## The PARENT-loop panic is unreachable -/

theorem rootCompsLoop_no_noLow (rec : Graph → List Vertex → Edges → Cache → EngineResult)
    (hrec : ∀ C conn aF cache, rec C conn aF cache ≠ .error .noLowComp)
    (childLambda : Edges) (childChi : List Vertex) (allowedFull : Edges) :
    ∀ (comps : List Graph) (cache : Cache),
      rootCompsLoop rec childLambda childChi allowedFull comps cache ≠
        .error .noLowComp := by
  intro comps
  induction comps with
  | nil => intro cache h; cases h
  | cons C rest ih =>
      intro cache h
      rw [rootCompsLoop] at h
      split at h
      · rename_i e heq
        injection h with h2
        subst h2
        exact hrec _ _ _ _ heq
      · rename_i d cache1 heq
        split at h
        · cases h
        · split at h
          · rename_i e2 heq2
            injection h with h2
            subst h2
            exact ih cache1 heq2
          · cases h
          · cases h

theorem parentUp_no_noLow (rec : Graph → List Vertex → Edges → Cache → EngineResult)
    (hrec : ∀ C conn aF cache, rec C conn aF cache ≠ .error .noLowComp)
    (Conn VerticesH : List Vertex) (allowedFull : Edges)
    (childLambda parentLambda : Edges) (comps_p : List Graph) (compLow : Graph)
    (tempEdgeSlice : Edges) (tempSpecialSlice : List Edges) (specialChild : Edges)
    (cache : Cache) :
    parentUp rec Conn VerticesH allowedFull childLambda parentLambda comps_p compLow
      tempEdgeSlice tempSpecialSlice specialChild cache ≠ .error .noLowComp := by
  intro h
  rw [parentUp] at h
  repeat' split at h
  all_goals
    first
      | (cases h
         done)
      | (injection h with h2
         cases h2
         exact hrec _ _ _ _ (by assumption))

theorem parentLoop_no_noLow (rec : Graph → List Vertex → Edges → Cache → EngineResult)
    (hrec : ∀ C conn aF cache, rec C conn aF cache ≠ .error .noLowComp)
    (b : Int) (H : Graph) (Conn VerticesH : List Vertex)
    (allowedFull allowedParent childLambda : Edges) :
    ∀ (cands : List (List Nat)) (cache : Cache),
      (∀ jp ∈ cands,
        ParentCheck.Check Conn (edgesVertices childLambda) H
          (GetSubset allowedParent jp) b = true) →
      parentLoop rec b H Conn VerticesH allowedFull allowedParent childLambda cands cache ≠
        .error .noLowComp := by
  intro cands
  induction cands with
  | nil => intro cache _ h; cases h
  | cons jp rest ih =>
      intro cache hcands h
      have hpred := hcands jp (List.mem_cons_self jp rest)
      have hrest : ∀ x ∈ rest,
          ParentCheck.Check Conn (edgesVertices childLambda) H
            (GetSubset allowedParent x) b = true :=
        fun x hx => hcands x (List.mem_cons_of_mem jp hx)
      rw [parentLoop] at h
      repeat' (first | (split at h) | (simp only [] at h))
      all_goals
        first
          | exact ih _ hrest h
          | (obtain ⟨L, hL, hlow⟩ := parentCheck_gives_low _ _ _ _ _ hpred
             have hS := findLowIdx_isSome _ _ L hL hlow
             have hnone : findLowIdx ((H.getComponents (GetSubset allowedParent jp)).fst)
                 (balancednessLimit H b) = none := by assumption
             rw [hnone] at hS
             cases hS)
          | (cases h
             done)
          | (injection h with h2
             cases h2
             first
               | exact hrec _ _ _ _ (by assumption)
               | exact rootCompsLoop_no_noLow rec hrec _ _ _ _ _ (by assumption)
               | exact parentUp_no_noLow rec hrec _ _ _ _ _ _ _ _ _ _ _ (by assumption))

theorem childLoop_no_noLow (rec : Graph → List Vertex → Edges → Cache → EngineResult)
    (hrec : ∀ C conn aF cache, rec C conn aF cache ≠ .error .noLowComp)
    (K : Nat) (b : Int) (H : Graph) (Conn VerticesH : List Vertex)
    (allowedFull allowed : Edges) :
    ∀ (cands : List (List Nat)) (cache : Cache),
      childLoop rec K b H Conn VerticesH allowedFull allowed cands cache ≠
        .error .noLowComp := by
  intro cands
  induction cands with
  | nil => intro cache h; cases h
  | cons j rest ih =>
      intro cache h
      rw [childLoop] at h
      repeat' (first | (split at h) | (simp only [] at h))
      all_goals
        first
          | exact ih _ h
          | (cases h
             done)
          | (injection h with h2
             cases h2
             first
               | exact rootCompsLoop_no_noLow rec hrec _ _ _ _ _ (by assumption)
               | (refine parentLoop_no_noLow rec hrec b H Conn VerticesH allowedFull _ _ _
                    cache ?_ (by assumption)
                  intro jp hjp
                  exact (List.mem_filter.mp hjp).2))

theorem findDecompF_no_noLow (K : Nat) (b : Int) :
    ∀ (fuel : Nat) (H : Graph) (Conn : List Vertex) (allowedFull : Edges) (cache : Cache),
      findDecompF K b fuel H Conn allowedFull cache ≠ .error .noLowComp := by
  intro fuel
  induction fuel with
  | zero => intro H Conn aF cache h; cases h
  | succ fuel ih =>
      intro H Conn aF cache h
      rw [findDecompF] at h
      split at h
      · cases h
      · split at h
        · cases h
        · exact childLoop_no_noLow _ (fun C conn aF2 cache2 => ih C conn aF2 cache2)
            K b H Conn _ aF _ _ cache h

/-- Claim C10: with a balance factor of at least two, at most one
component of H minus sep can exceed the balancedness limit; whenever
ParentCheck.Check has accepted a separator, the engine's own
recomputation of the over-sized component succeeds, and the engine
never reaches the PARENT-loop panic for a missing over-sized component
at any fuel, graph, connector set or cache. -/
theorem lowComp_unique_panic_unreachable :
    (∀ (H : Graph) (sep : Edges) (b : Int), 2 ≤ b →
      ∀ L1 ∈ (H.getComponents sep).fst, ∀ L2 ∈ (H.getComponents sep).fst,
        balancednessLimit H b < (L1.len : Int) → balancednessLimit H b < (L2.len : Int) →
        L1 = L2) ∧
    (∀ (Conn Child : List Vertex) (H : Graph) (sep : Edges) (b : Int),
      ParentCheck.Check Conn Child H sep b = true →
        (findLowIdx (H.getComponents sep).fst (balancednessLimit H b)).isSome) ∧
    (∀ (K : Nat) (b : Int) (fuel : Nat) (H : Graph) (Conn : List Vertex)
        (allowedFull : Edges) (cache : Cache),
      findDecompF K b fuel H Conn allowedFull cache ≠ .error .noLowComp) := by
  refine ⟨?_, ?_, ?_⟩
  · intro H sep b hb L1 h1 L2 h2 hl1 hl2
    exact low_comp_unique H sep b hb L1 L2 h1 h2 hl1 hl2
  · intro Conn Child H sep b h
    obtain ⟨L, hL, hlow⟩ := parentCheck_gives_low _ _ _ _ _ h
    exact findLowIdx_isSome _ _ L hL hlow
  · exact findDecompF_no_noLow

/-- Witness for the unreachability of the PARENT-loop panic at concrete
inputs. -/
theorem lowComp_unique_panic_unreachable_witness :
    ({ edges := [Edge.mk 1 [1, 2]], special := [] } : Graph) =
        { edges := [Edge.mk 1 [1, 2]], special := [] } ∧
      (findLowIdx
        (Graph.getComponents { edges := [Edge.mk 1 [1, 2]], special := [] } []).fst
        (balancednessLimit { edges := [Edge.mk 1 [1, 2]], special := [] } 2)).isSome ∧
      findDecompF 1 2 1 emptyGraph [] [] [] ≠ .error .noLowComp := by
  obtain ⟨h1, h2, h3⟩ := lowComp_unique_panic_unreachable
  refine ⟨?_, ?_, h3 1 2 1 emptyGraph [] [] []⟩
  · exact h1 { edges := [Edge.mk 1 [1, 2]], special := [] } [] 2 (by norm_num)
      { edges := [Edge.mk 1 [1, 2]], special := [] } (by decide)
      { edges := [Edge.mk 1 [1, 2]], special := [] } (by decide) (by decide) (by decide)
  · exact h2 [] [1] { edges := [Edge.mk 1 [1, 2]], special := [] } [] 2 (by decide)

/-! ## The attach operation -/

mutual

theorem checkLeaves_isSome (vs : List Vertex) (sub : Node) :
    ∀ n, (Node.checkLeaves vs sub n).isSome = hasGraftLeaf vs n
  | .mk bag cover [] => by
      by_cases hS : Subset vs bag = true <;>
        simp [Node.checkLeaves, hasGraftLeaf, hS]
  | .mk bag cover (c :: cs) => by
      have hl := checkLeavesList_isSome vs sub (c :: cs)
      rw [Node.checkLeaves, hasGraftLeaf, ← hl]
      cases hcl : checkLeavesList vs sub (c :: cs) <;> simp [hcl]

theorem checkLeavesList_isSome (vs : List Vertex) (sub : Node) :
    ∀ l, (checkLeavesList vs sub l).isSome = hasGraftLeafList vs l
  | [] => by simp [checkLeavesList, hasGraftLeafList]
  | c :: cs => by
      have h1 := checkLeaves_isSome vs sub c
      have h2 := checkLeavesList_isSome vs sub cs
      rw [checkLeavesList, hasGraftLeafList, ← h1, ← h2]
      cases hc : Node.checkLeaves vs sub c with
      | some c2 => simp
      | none =>
          cases hcs : checkLeavesList vs sub cs <;> simp [hcs]

end

/-- Claim C5, counterexample: on a one-node tree whose leaf bag holds the
marker's vertex but whose cover differs from the marker, the attach
operation does not abort; it grafts the subtree below the leaf (keeping
the leaf) even though the tree holds no node whose cover equals the
marker. -/
theorem attach_counterexample :
    attachingSubtrees (Node.mk [1] [Edge.mk 5 [1]] []) (Node.mk [2] [Edge.mk 6 [2]] [])
        [Edge.mk 0 [1]] =
      some (Node.mk [1] [Edge.mk 5 [1]] [Node.mk [2] [Edge.mk 6 [2]] []]) ∧
    countCoverEq [Edge.mk 0 [1]] (Node.mk [1] [Edge.mk 5 [1]] []) = 0 := by
  exact ⟨rfl, rfl⟩

/-- Claim C5, amended: the attach operation succeeds exactly when the
tree above holds a leaf whose bag contains the vertices of the
connecting edges; when no such leaf exists the operation is the fatal
contract violation. -/
theorem attach_isSome_iff_graft_leaf :
    ∀ (above below : Node) (connecting : Edges),
      (attachingSubtrees above below connecting).isSome =
        hasGraftLeaf (edgesVertices connecting) above := by
  intro above below connecting
  exact checkLeaves_isSome (edgesVertices connecting) below above

/-! ## The parallel search -/

theorem scanShard_some (pred : List Nat → Bool) :
    ∀ (g : List (List Nat)) (j : List Nat) (rest : List (List Nat)),
      scanShard pred g = (some j, rest) →
      pred j = true ∧ j ∈ g ∧ g.filter pred = j :: rest.filter pred ∧
        rest.length < g.length := by
  intro g
  induction g with
  | nil => intro j rest h; cases h
  | cons x xs ih =>
      intro j rest h
      rw [scanShard] at h
      by_cases hp : pred x = true
      · rw [if_pos hp] at h
        have h1 : some x = some j := congrArg Prod.fst h
        have h2 : xs = rest := congrArg Prod.snd h
        have hxj : x = j := Option.some.inj h1
        subst hxj
        subst h2
        refine ⟨hp, List.mem_cons_self x xs, ?_, Nat.lt_succ_self _⟩
        rw [List.filter_cons_of_pos hp]
      · rw [if_neg hp] at h
        obtain ⟨h1, h2, h3, h4⟩ := ih j rest h
        refine ⟨h1, List.mem_cons_of_mem x h2, ?_, Nat.lt_succ_of_lt h4⟩
        rw [List.filter_cons_of_neg (by simpa using hp)]
        exact h3

theorem scanShard_none (pred : List Nat → Bool) :
    ∀ (g : List (List Nat)) (r : List (List Nat)),
      scanShard pred g = (none, r) → g.filter pred = [] := by
  intro g
  induction g with
  | nil => intro r _; rfl
  | cons x xs ih =>
      intro r h
      rw [scanShard] at h
      by_cases hp : pred x = true
      · rw [if_pos hp] at h
        cases h
      · rw [if_neg hp] at h
        rw [List.filter_cons_of_neg (by simpa using hp)]
        exact ih r h

theorem findNextGens_none (pred : List Nat → Bool) :
    ∀ gens, findNextGens pred gens = none → enumAll pred gens = [] := by
  intro gens
  induction gens with
  | nil => intro _; rfl
  | cons g gs ih =>
      intro h
      rw [findNextGens] at h
      split at h
      · cases h
      · rename_i r heq
        have hg := scanShard_none pred g r heq
        split at h
        · cases h
        · rename_i heq2
          have hgs := ih heq2
          rw [enumAll, List.map_cons, List.flatten_cons, hg]
          simpa [enumAll] using hgs

theorem findNextGens_some (pred : List Nat → Bool) :
    ∀ gens j gens2, findNextGens pred gens = some (j, gens2) →
      pred j = true ∧ j ∈ gens.flatten ∧
        enumAll pred gens = j :: enumAll pred gens2 ∧
        gensTotal gens2 < gensTotal gens := by
  intro gens
  induction gens with
  | nil => intro j gens2 h; cases h
  | cons g gs ih =>
      intro j gens2 h
      rw [findNextGens] at h
      split at h
      · rename_i j0 rest heq
        injection h with h1
        injection h1 with hj hg2
        subst hj
        subst hg2
        obtain ⟨hp, hmem, hfil, hlen⟩ := scanShard_some pred g j0 rest heq
        refine ⟨hp, List.mem_flatten.mpr ⟨g, List.mem_cons_self g gs, hmem⟩, ?_, ?_⟩
        · rw [enumAll, List.map_cons, List.flatten_cons, hfil]
          rfl
        · rw [gensTotal, gensTotal, List.map_cons, List.map_cons, List.sum_cons,
            List.sum_cons]
          omega
      · rename_i r heq
        have hg := scanShard_none pred g r heq
        split at h
        · rename_i j1 gs2 heq2
          injection h with h1
          injection h1 with hj hg2
          subst hj
          subst hg2
          obtain ⟨hp, hmem, henum, htot⟩ := ih j1 gs2 heq2
          refine ⟨hp, ?_, ?_, ?_⟩
          · rcases List.mem_flatten.mp hmem with ⟨g2, hg2, hjg2⟩
            exact List.mem_flatten.mpr ⟨g2, List.mem_cons_of_mem g hg2, hjg2⟩
          · rw [enumAll, List.map_cons, List.flatten_cons, hg, List.nil_append]
            rw [enumAll] at henum
            rw [henum]
            rfl
          · simp only [gensTotal, List.map_cons, List.sum_cons, List.length_nil]
              at htot ⊢
            omega
        · cases h

theorem gensTotal_zero_enumAll (pred : List Nat → Bool) :
    ∀ gens, gensTotal gens = 0 → enumAll pred gens = [] := by
  intro gens
  induction gens with
  | nil => intro _; rfl
  | cons g gs ih =>
      intro h
      rw [gensTotal, List.map_cons, List.sum_cons] at h
      have hg : g = [] := List.length_eq_zero.mp (by omega)
      have hgs := ih (by rw [gensTotal]; omega)
      rw [enumAll, List.map_cons, List.flatten_cons, hg]
      simpa [enumAll] using hgs

theorem searchResults_eq (pred : List Nat → Bool) :
    ∀ (fuel : Nat) (gens : List (List (List Nat))), gensTotal gens ≤ fuel →
      searchResults pred fuel gens = enumAll pred gens := by
  intro fuel
  induction fuel with
  | zero =>
      intro gens h
      rw [searchResults, gensTotal_zero_enumAll pred gens (by omega)]
  | succ fuel ih =>
      intro gens h
      rw [searchResults]
      cases hF : findNextGens pred gens with
      | none => rw [findNextGens_none pred gens hF]
      | some r =>
          obtain ⟨j, gens2⟩ := r
          obtain ⟨hp, hmem, henum, htot⟩ := findNextGens_some pred gens j gens2 hF
          rw [henum]
          show j :: searchResults pred fuel gens2 = j :: enumAll pred gens2
          rw [ih gens2 (by omega)]

theorem chunks_flatten {α : Type} (szPred : Nat) :
    ∀ xs : List α, (chunks szPred xs).flatten = xs
  | [] => by rw [chunks]; rfl
  | x :: xs => by
      rw [chunks, List.flatten_cons, chunks_flatten szPred (xs.drop szPred)]
      simp [List.take_append_drop]
  termination_by xs => xs.length
  decreasing_by simp; omega

theorem enumAll_eq_filter_flatten (pred : List Nat → Bool) :
    ∀ gens, enumAll pred gens = gens.flatten.filter pred := by
  intro gens
  induction gens with
  | nil => rfl
  | cons g gs ih =>
      rw [enumAll, List.map_cons, List.flatten_cons, List.flatten_cons, List.filter_append]
      rw [enumAll] at ih
      rw [ih]

theorem gensTotal_eq_flatten_length (gens : List (List (List Nat))) :
    gensTotal gens = gens.flatten.length := by
  rw [gensTotal, List.length_flatten]

theorem combos_mem_length :
    ∀ (k : Nat) (l : List Nat) (j : List Nat), j ∈ combos k l → j.length = k
  | 0, l, j, h => by
      rw [combos] at h
      rcases List.mem_singleton.mp h with rfl
      rfl
  | k + 1, [], j, h => by cases h
  | k + 1, x :: xs, j, h => by
      rw [combos] at h
      rcases List.mem_append.mp h with h1 | h2
      · rcases List.mem_map.mp h1 with ⟨t, ht, rfl⟩
        rw [List.length_cons, combos_mem_length k xs t ht]
      · exact combos_mem_length (k + 1) xs j h2

theorem combos_mem_sublist :
    ∀ (k : Nat) (l : List Nat) (j : List Nat), j ∈ combos k l → j.Sublist l
  | 0, l, j, h => by
      rw [combos] at h
      rcases List.mem_singleton.mp h with rfl
      exact List.nil_sublist l
  | k + 1, [], j, h => by cases h
  | k + 1, x :: xs, j, h => by
      rw [combos] at h
      rcases List.mem_append.mp h with h1 | h2
      · rcases List.mem_map.mp h1 with ⟨t, ht, rfl⟩
        exact List.Sublist.cons₂ x (combos_mem_sublist k xs t ht)
      · exact List.Sublist.cons x (combos_mem_sublist (k + 1) xs j h2)

theorem combos_nodup :
    ∀ (k : Nat) (l : List Nat), l.Nodup → (combos k l).Nodup
  | 0, l, _ => by rw [combos]; exact List.nodup_singleton _
  | k + 1, [], _ => by rw [combos]; exact List.nodup_nil
  | k + 1, x :: xs, h => by
      rw [combos]
      have hx : x ∉ xs := (List.nodup_cons.mp h).1
      have hxs : xs.Nodup := (List.nodup_cons.mp h).2
      apply List.Nodup.append
      · exact List.Nodup.map (fun a b hab => by injection hab)
          (combos_nodup k xs hxs)
      · exact combos_nodup (k + 1) xs hxs
      · intro a ha1 ha2
        rcases List.mem_map.mp ha1 with ⟨t, _, rfl⟩
        have := combos_mem_sublist (k + 1) xs _ ha2
        exact hx (this.subset (List.mem_cons_self x t))

theorem combinations_nodup (m k : Nat) : (combinations m k).Nodup :=
  combos_nodup k (List.range m) (List.nodup_range m)

theorem combinations_mem_length (m k : Nat) (j : List Nat) (h : j ∈ combinations m k) :
    j.length = k :=
  combos_mem_length k (List.range m) j h

theorem combinations_mem_lt (m k : Nat) (j : List Nat) (h : j ∈ combinations m k) :
    ∀ i ∈ j, i < m := by
  intro i hi
  have := (combos_mem_sublist k (List.range m) j h).subset hi
  exact List.mem_range.mp this

/-- Claim C7: a FindNext call either sets ExhaustedSearch or sets Result
to a k-subset of the index universe that satisfies the predicate; and
iterating FindNext from the sharded enumeration until exhaustion returns
exactly the satisfying k-subsets, each exactly once. -/
theorem parallelSearch_contract (m k p : Nat) (pred : List Nat → Bool)
    (s : ParallelSearch)
    (hgens : ∀ g ∈ s.generators, ∀ j ∈ g, j ∈ combinations m k) :
    ((s.FindNext pred).exhaustedSearch = true ∨
      ((s.FindNext pred).result ∈ combinations m k ∧
        pred (s.FindNext pred).result = true ∧
        (s.FindNext pred).result.length = k ∧
        ∀ i ∈ (s.FindNext pred).result, i < m)) ∧
    searchResults pred ((combinations m k).length) (SplitCombin m k p) =
      (combinations m k).filter pred ∧
    (∀ j, j ∈ searchResults pred ((combinations m k).length) (SplitCombin m k p) ↔
      (j ∈ combinations m k ∧ pred j = true)) ∧
    (searchResults pred ((combinations m k).length) (SplitCombin m k p)).Nodup := by
  have hflat : (SplitCombin m k p).flatten = combinations m k := by
    rw [SplitCombin]
    exact chunks_flatten _ _
  have htot : gensTotal (SplitCombin m k p) = (combinations m k).length := by
    rw [gensTotal_eq_flatten_length, hflat]
  have hiter : searchResults pred ((combinations m k).length) (SplitCombin m k p) =
      (combinations m k).filter pred := by
    rw [searchResults_eq pred _ _ (le_of_eq htot), enumAll_eq_filter_flatten, hflat]
  refine ⟨?_, hiter, ?_, ?_⟩
  · rw [ParallelSearch.FindNext]
    cases hF : findNextGens pred s.generators with
    | none => exact Or.inl rfl
    | some r =>
        obtain ⟨j, gens2⟩ := r
        obtain ⟨hp, hmem, _, _⟩ := findNextGens_some pred s.generators j gens2 hF
        rcases List.mem_flatten.mp hmem with ⟨g, hg, hjg⟩
        have hj := hgens g hg j hjg
        exact Or.inr ⟨hj, hp, combinations_mem_length m k j hj,
          combinations_mem_lt m k j hj⟩
  · intro j
    rw [hiter, List.mem_filter]
  · rw [hiter]
    exact (combinations_nodup m k).filter pred

/-- Witness for the search contract at a concrete sharded state. -/
theorem parallelSearch_contract_witness :
    (∀ g ∈ (ParallelSearch.mk (SplitCombin 3 2 2) [] false).generators,
      ∀ j ∈ g, j ∈ combinations 3 2) ∧
    searchResults (fun j => j.contains 0) ((combinations 3 2).length)
        (SplitCombin 3 2 2) = (combinations 3 2).filter (fun j => j.contains 0) := by
  have hgens : ∀ g ∈ (ParallelSearch.mk (SplitCombin 3 2 2) [] false).generators,
      ∀ j ∈ g, j ∈ combinations 3 2 := by
    intro g hg j hj
    have hflat : (SplitCombin 3 2 2).flatten = combinations 3 2 := by
      rw [SplitCombin]
      exact chunks_flatten _ _
    exact hflat ▸ List.mem_flatten.mpr ⟨g, hg, hj⟩
  have h := parallelSearch_contract 3 2 2 (fun j => j.contains 0)
    (ParallelSearch.mk (SplitCombin 3 2 2) [] false) hgens
  exact ⟨hgens, h.2.1⟩

end BalancedGo
